import Mathlib

/-!
Shallow embedding of the xshuttle settings core (crates/settings) and proofs
about it: the indexed node container (`nodes.rs`), the config types and their
JSON wire format (`types.rs`), the config loader and schema validation
(`sources/config.rs`), the SSH host loader (`loaders/ssh.rs`), the settings
aggregator (`settings.rs`) and the host command (`host.rs`).

Machine integers (`usize`) are modelled as `Nat`: all of them are vector
lengths and indices, far below any overflow boundary, and Rust's `Vec`
operations used here cannot overflow `usize`. File-system interaction is
modelled by passing the outcome of each read explicitly (absent / unreadable /
present-with-contents). Rust functions that cannot panic are total Lean
functions; fallible ones return `Option` / `Except`.
-/

namespace XShuttle

/-- `Action` from `types.rs`: a leaf menu item with a display name and command. -/
structure Action where
  name : String
  cmd : String
deriving Repr, DecidableEq

/-- `Entry` from `types.rs`: either an action or a named group of nested
entries. The Rust `Group { name, entries }` struct is inlined as the fields of
the `group` constructor (see `Group` below for the standalone struct). -/
inductive Entry where
  | action (a : Action)
  | group (name : String) (entries : List Entry)
deriving Repr

/-- `Group` from `types.rs`. -/
structure Group where
  name : String
  entries : List Entry
deriving Repr

/-- `NodeId` from `nodes.rs`: a newtype over `usize`. -/
structure NodeId where
  index : Nat
deriving Repr, DecidableEq

/-- `Node<T>` from `nodes.rs`: a leaf with its id and value, or a named group
of children. -/
inductive Node (T : Type) where
  | leaf (id : NodeId) (value : T)
  | group (name : String) (children : List (Node T))
deriving Repr

/-- `Nodes<T>` from `nodes.rs`: parallel tree and flat-leaf representations. -/
structure Nodes (T : Type) where
  tree : List (Node T)
  leaves : List T
deriving Repr

/-- `Host` from `host.rs`. -/
structure Host where
  hostname : String
deriving Repr, DecidableEq

/-- `Host::command` from `host.rs`: `format!("ssh {}", self.hostname)`. -/
def Host.command (h : Host) : String :=
  "ssh " ++ h.hostname

mutual

/-- `Nodes::convert_entry` from `nodes.rs`. The Rust `&mut Vec<Action>`
accumulator is threaded explicitly: the function takes the leaves collected so
far and returns the built node together with the extended leaves vector. -/
def convertEntry : Entry → List Action → Node Action × List Action
  | Entry.action a, leaves =>
      (Node.leaf ⟨leaves.length⟩ a, leaves ++ [a])
  | Entry.group name entries, leaves =>
      let p := convertEntries entries leaves
      (Node.group name p.1, p.2)

/-- The `entries.into_iter().map(|e| convert_entry(e, leaves)).collect()` loop
of `convert_entry` / `from_entries`, with the mutable accumulator threaded. -/
def convertEntries : List Entry → List Action → List (Node Action) × List Action
  | [], leaves => ([], leaves)
  | e :: es, leaves =>
      let p := convertEntry e leaves
      let q := convertEntries es p.2
      (p.1 :: q.1, q.2)

end

/-- `Nodes::from_entries` from `nodes.rs`. -/
def Nodes.from_entries (entries : List Entry) : Nodes Action :=
  let p := convertEntries entries []
  ⟨p.1, p.2⟩

/-- The `hostnames.into_iter().enumerate().map(...)` loop of
`Nodes::from_hostnames`, threading the index and the leaves accumulator. -/
def hostLoop : List String → Nat → List Host → List (Node Host) × List Host
  | [], _, leaves => ([], leaves)
  | hostname :: rest, i, leaves =>
      let host : Host := ⟨hostname⟩
      let q := hostLoop rest (i + 1) (leaves ++ [host])
      (Node.leaf ⟨i⟩ host :: q.1, q.2)

/-- `Nodes::from_hostnames` from `nodes.rs`: every element becomes a top-level
leaf whose id is its position. -/
def Nodes.from_hostnames (hostnames : List String) : Nodes Host :=
  let p := hostLoop hostnames 0 []
  ⟨p.1, p.2⟩

/-- `Nodes::get` from `nodes.rs`: `self.leaves.get(id.0)`. -/
def Nodes.get {T : Type} (ns : Nodes T) (id : NodeId) : Option T :=
  ns.leaves.get? id.index

/-- `Nodes::iter` from `nodes.rs`: `(NodeId, value)` pairs in ascending id
order over the flat table. -/
def Nodes.iter {T : Type} (ns : Nodes T) : List (NodeId × T) :=
  ns.leaves.enum.map (fun p => (⟨p.1⟩, p.2))

/-- `Nodes::nodes` from `nodes.rs`. -/
def Nodes.nodes {T : Type} (ns : Nodes T) : List (Node T) :=
  ns.tree

/-- `Nodes::len` from `nodes.rs`: the flat table size. -/
def Nodes.len {T : Type} (ns : Nodes T) : Nat :=
  ns.leaves.length

/-- `Nodes::is_empty` from `nodes.rs`. -/
def Nodes.is_empty {T : Type} (ns : Nodes T) : Bool :=
  ns.leaves.isEmpty

mutual

/-- The `(id, value)` pairs of the leaves of one tree node, in depth-first
left-to-right order (pattern-matching traversal of `Node`, as menu building
does). -/
def nodeLeafPairs {T : Type} : Node T → List (NodeId × T)
  | Node.leaf id v => [(id, v)]
  | Node.group _ children => forestLeafPairs children

/-- Depth-first `(id, value)` leaf pairs of a forest. -/
def forestLeafPairs {T : Type} : List (Node T) → List (NodeId × T)
  | [] => []
  | n :: rest => nodeLeafPairs n ++ forestLeafPairs rest

end

mutual

/-- Pre-order list of the actions of one entry (the order in which
`convert_entry` reaches them). -/
def entryActions : Entry → List Action
  | Entry.action a => [a]
  | Entry.group _ entries => entriesActions entries

/-- Pre-order list of the actions of an entry list. -/
def entriesActions : List Entry → List Action
  | [] => []
  | e :: es => entryActions e ++ entriesActions es

end

mutual

/-- Spec-side conversion, written from the spec's words for §4.3: the output
tree has the shape of the input tree, each Action replaced by a `Leaf` whose
id is the running pre-order leaf counter `k`. -/
def specNode : Entry → Nat → Node Action
  | Entry.action a, k => Node.leaf ⟨k⟩ a
  | Entry.group name entries, k => Node.group name (specNodes entries k)

/-- Spec-side conversion of an entry list starting at leaf counter `k`: each
entry's subtree consumes as many ids as it has actions. -/
def specNodes : List Entry → Nat → List (Node Action)
  | [], _ => []
  | e :: es, k => specNode e k :: specNodes es (k + (entryActions e).length)

end

/-- `(NodeId, value)` pairs numbering a list consecutively from `k`. -/
def enumPairsFrom {T : Type} : Nat → List T → List (NodeId × T)
  | _, [] => []
  | k, t :: ts => (⟨k⟩, t) :: enumPairsFrom (k + 1) ts

/-- The tree/flat invariant of `Nodes<T>`: every tree leaf's id looks up its
own value in the flat table, the leaf ids enumerate `[0, len)` in depth-first
order (hence each flat slot is reached by exactly one leaf), and the number of
leaves reachable from `nodes()` equals `len()`. -/
def leafFlatInvariant {T : Type} (ns : Nodes T) : Prop :=
  (∀ id v, (id, v) ∈ forestLeafPairs ns.nodes → ns.get id = some v)
  ∧ (forestLeafPairs ns.nodes).map (fun p => p.1.index) = List.range ns.len
  ∧ (forestLeafPairs ns.nodes).length = ns.len

/-! ## JSON wire format (`types.rs` serde implementations)

`serde_json::Value` is modelled by the `Json` inductive below; objects are
key/value lists (a `serde_json` map cannot hold duplicate keys, which is
assumed where it matters via `distinctKeys`). Numbers are modelled as `Int`:
no code under scrutiny inspects numeric values, only their JSON type. -/

/-- A JSON value (`serde_json::Value`). -/
inductive Json where
  | null
  | bool (b : Bool)
  | num (n : Int)
  | str (s : String)
  | arr (xs : List Json)
  | obj (kvs : List (String × Json))
deriving Repr

/-- Field access as serde's derived struct deserializer sees it: exactly one
occurrence of key `k` whose value is a JSON string (a duplicated field or a
non-string value is a deserialization error, a missing field is `none`). -/
def getStrField (kvs : List (String × Json)) (k : String) : Option String :=
  match kvs.filter (fun p => p.1 == k) with
  | [(_, Json.str s)] => some s
  | _ => none

/-- Serialization of `Action` (derived `Serialize` in `types.rs`): an object
with the fields in declaration order. -/
def toJsonAction (a : Action) : Json :=
  Json.obj [("name", Json.str a.name), ("cmd", Json.str a.cmd)]

/-- Deserialization of `Action` (derived `Deserialize` in `types.rs`) from a
JSON object: both `name` and `cmd` must be present as strings; unknown fields
are ignored (serde's default). serde's positional-sequence decoding path for
structs is not modelled: the wire format under study only uses objects. -/
def fromJsonAction (v : Json) : Option Action :=
  match v with
  | Json.obj kvs =>
      match getStrField kvs "name", getStrField kvs "cmd" with
      | some n, some c => some ⟨n, c⟩
      | _, _ => none
  | _ => none

mutual

/-- Serialization of `Entry` (`#[serde(untagged)]` in `types.rs`): the active
variant serializes directly. A group serializes as the single-key map from
its name to its serialized entries (`impl Serialize for Group`). -/
def toJsonEntry : Entry → Json
  | Entry.action a => toJsonAction a
  | Entry.group name entries => Json.obj [(name, Json.arr (toJsonEntries entries))]

/-- Serialization of an entry sequence (`Vec<Entry>`). -/
def toJsonEntries : List Entry → List Json
  | [] => []
  | e :: es => toJsonEntry e :: toJsonEntries es

end

/-- Serialization of a standalone `Group` (`impl Serialize for Group`). -/
def toJsonGroup (g : Group) : Json :=
  Json.obj [(g.name, Json.arr (toJsonEntries g.entries))]

mutual

/-- Deserialization of `Entry` (`#[serde(untagged)]`): try the `Action` shape
first, then the `Group` shape, reject anything matching neither. -/
def fromJsonEntry (v : Json) : Option Entry :=
  match fromJsonAction v with
  | some a => some (Entry.action a)
  | none =>
      match fromJsonGroup v with
      | some g => some (Entry.group g.name g.entries)
      | none => none
termination_by (sizeOf v, 2)

/-- Deserialization of `Group` (`GroupVisitor::visit_map` in `types.rs`): the
input must be a map; its first entry is read as the name and the entry
sequence (failing if the value is not a valid entry sequence), an empty map
is an error, and any further key is an error. -/
def fromJsonGroup : Json → Option Group
  | Json.obj ((k, v) :: rest) =>
      match fromJsonEntrySeq v with
      | some es => if rest.isEmpty then some ⟨k, es⟩ else none
      | none => none
  | _ => none
termination_by v => (sizeOf v, 1)

/-- Deserialization of `Vec<Entry>`: the value must be a JSON array and every
element must deserialize. -/
def fromJsonEntrySeq : Json → Option (List Entry)
  | Json.arr xs => fromJsonEntryList xs
  | _ => none
termination_by v => (sizeOf v, 1)

/-- Element-wise deserialization of an entry array. -/
def fromJsonEntryList : List Json → Option (List Entry)
  | [] => some []
  | x :: xs =>
      match fromJsonEntry x, fromJsonEntryList xs with
      | some e, some es => some (e :: es)
      | _, _ => none
termination_by xs => (sizeOf xs, 0)

end

/-! ## Schema validation and config loading (`sources/config.rs`) -/

/-- `ValidationError` from `sources/config.rs`: a path plus a message. -/
structure ValidationError where
  path : String
  message : String
deriving Repr, DecidableEq

/-- `ValidationResult` from `sources/config.rs`. -/
inductive ValidationResult where
  | valid
  | invalid (errors : List ValidationError)
deriving Repr

/-- Modelled from the spec: whether a JSON value matches the Action shape of
the schema (§4.1: "exactly `name` and `cmd`, both strings"). The schema
document `assets/xshuttle.schema.json` is embedded at build time and is not
under `src/`. -/
def isActionShape (v : Json) : Bool :=
  match v with
  | Json.obj kvs =>
      (getStrField kvs "name").isSome && (getStrField kvs "cmd").isSome
        && kvs.all (fun p => p.1 == "name" || p.1 == "cmd")
  | _ => false

mutual

/-- Modelled from the spec: schema validation of one entry (§4.1: "every
element of every entry/submenu sequence conforms to either the Action shape
(exactly `name` and `cmd`, both strings) or the single-key-group shape"),
collecting all violations with their paths. The schema document
`assets/xshuttle.schema.json` is not under `src/`. -/
def validateEntry (path : String) (v : Json) : List ValidationError :=
  if isActionShape v then []
  else
    match v with
    | Json.obj [(k, Json.arr xs)] => validateEntryList (path ++ "/" ++ k) 0 xs
    | _ => [⟨path, "entry matches neither the action shape nor the group shape"⟩]
termination_by (sizeOf v, 1)

/-- Modelled from the spec: validation of every element of an entry sequence,
collecting all violations (§4.1: "run to completion and collect all
violations, not fail fast on the first"). -/
def validateEntryList (path : String) (i : Nat) : List Json → List ValidationError
  | [] => []
  | x :: xs => validateEntry (path ++ "/" ++ toString i) x ++ validateEntryList path (i + 1) xs
termination_by xs => (sizeOf xs, 0)

end

/-- Modelled from the spec: validation of one top-level field (§4.1:
"recognized top-level keys only (rejects unknown fields)"; "correct primitive
types for `terminal`/`editor`"; "`actions` is a sequence"). An unknown key
produces an error whose path references that key. -/
def validateField : String × Json → List ValidationError
  | (k, v) =>
    if k = "terminal" then
      match v with
      | Json.str _ => []
      | _ => [⟨"/terminal", "expected a string"⟩]
    else if k = "editor" then
      match v with
      | Json.str _ => []
      | _ => [⟨"/editor", "expected a string"⟩]
    else if k = "actions" then
      match v with
      | Json.arr xs => validateEntryList "/actions" 0 xs
      | _ => [⟨"/actions", "expected an array"⟩]
    else [⟨"/" ++ k, "unknown field " ++ k⟩]

/-- Modelled from the spec: all violations of all top-level fields. -/
def validateFields (kvs : List (String × Json)) : List ValidationError :=
  (kvs.map validateField).flatten

/-- Modelled from the spec: all schema violations of a config document (§4.1;
the document must be an object, an error at the document level carries the
empty path). -/
def validateTop (v : Json) : List ValidationError :=
  match v with
  | Json.obj kvs => validateFields kvs
  | _ => [⟨"", "expected a JSON object"⟩]

/-- `validate` from `sources/config.rs`: collect the errors, `Valid` exactly
when there are none. The error generation itself is modelled from the spec
(the schema document is not under `src/`). -/
def validate (v : Json) : ValidationResult :=
  let errors := validateTop v
  if errors.isEmpty then ValidationResult.valid else ValidationResult.invalid errors

/-- `ConfigContent` from `sources/config.rs`: all fields optional. -/
structure ConfigContent where
  terminal : Option String
  editor : Option String
  actions : Option (List Entry)
deriving Repr

/-- `#[derive(Default)]` for `ConfigContent`. -/
def ConfigContent.defaultContent : ConfigContent := ⟨none, none, none⟩

/-- What serde's derived struct deserializer sees for one field of an object:
missing, present once, or duplicated (an error). -/
inductive FieldLookup where
  | absent
  | present (v : Json)
  | dup
deriving Repr

/-- Field lookup in a JSON object, distinguishing the duplicate-key error. -/
def lookupField (kvs : List (String × Json)) (k : String) : FieldLookup :=
  match kvs.filter (fun p => p.1 == k) with
  | [] => FieldLookup.absent
  | [(_, v)] => FieldLookup.present v
  | _ => FieldLookup.dup

/-- serde deserialization of an `Option<String>` field: missing or `null` is
`None`, a string is `Some`, anything else is an error. -/
def parseOptStr : FieldLookup → Option (Option String)
  | FieldLookup.absent => some none
  | FieldLookup.present (Json.str s) => some (some s)
  | FieldLookup.present Json.null => some none
  | _ => none

/-- serde deserialization of the `Option<Vec<Entry>>` field. -/
def parseOptEntries : FieldLookup → Option (Option (List Entry))
  | FieldLookup.absent => some none
  | FieldLookup.present Json.null => some none
  | FieldLookup.present v => (fromJsonEntrySeq v).map some
  | FieldLookup.dup => none

/-- `serde_json::from_value::<ConfigContent>` (derived `Deserialize`): the
value must be an object; each field deserializes per its type; unknown fields
are ignored (serde's default). -/
def deserializeConfig (v : Json) : Option ConfigContent :=
  match v with
  | Json.obj kvs =>
      match parseOptStr (lookupField kvs "terminal"),
            parseOptStr (lookupField kvs "editor"),
            parseOptEntries (lookupField kvs "actions") with
      | some t, some e, some a => some ⟨t, e, a⟩
      | _, _, _ => none
  | _ => none

/-- `SettingsError` from `error.rs` (payloads reduced to what the claims
inspect: the error kind, the validation error list, and the SSH message). -/
inductive SettingsError where
  | noHomeDir
  | configIo (msg : String)
  | configParse
  | configValidation (errors : List ValidationError)
  | sshParse (msg : String)
deriving Repr

/-- `load_from_str` from `sources/config.rs`. The `serde_json::from_str` step
is represented by its outcome: `none` when the input is not valid JSON (the
`ConfigParse` error path), `some value` otherwise. -/
def load_from_str (parsed : Option Json) : Except SettingsError ConfigContent :=
  match parsed with
  | none => Except.error SettingsError.configParse
  | some value =>
      match validate value with
      | ValidationResult.invalid errors =>
          Except.error (SettingsError.configValidation errors)
      | ValidationResult.valid =>
          match deserializeConfig value with
          | some c => Except.ok c
          | none => Except.error SettingsError.configParse

/-- Whether a list of keys is duplicate-free (`serde_json` maps always are). -/
def distinctKeys : List String → Bool
  | [] => true
  | k :: ks => (!ks.contains k) && distinctKeys ks

/-- Whether a parsed JSON document has duplicate-free top-level keys; always
true of a `serde_json::Value` (its maps collapse duplicates). -/
def topKeysDistinct : Json → Bool
  | Json.obj kvs => distinctKeys (kvs.map Prod.fst)
  | _ => true

/-- Outcome of looking at the config file (`config::load` and
`load_from_path` in `sources/config.rs`): absent, unreadable, or read with
the given JSON parse outcome. -/
inductive ConfigFile where
  | absent
  | unreadable (msg : String)
  | present (parsed : Option Json)

/-- `config::load` from `sources/config.rs`: `NoHomeDir` when the home
directory cannot be resolved, `Ok(None)` when the file is absent, the I/O
error when it is unreadable, otherwise `load_from_str` on its contents. -/
def config_load (home : Bool) (file : ConfigFile) : Except SettingsError (Option ConfigContent) :=
  if home then
    match file with
    | ConfigFile.absent => Except.ok none
    | ConfigFile.unreadable m => Except.error (SettingsError.configIo m)
    | ConfigFile.present parsed => (load_from_str parsed).map some
  else Except.error SettingsError.noHomeDir

/-! ## SSH host loading (`loaders/ssh.rs`) -/

/-- One pattern clause of a parsed SSH `Host` block (the `ssh2_config`
output consumed by `parse_ssh_config`). -/
structure HostClause where
  pattern : String
  negated : Bool
deriving Repr

/-- One parsed SSH `Host` block: its pattern clauses. -/
structure SshHostBlock where
  pattern : List HostClause
deriving Repr

/-- The clause filter of `parse_ssh_config`: skip wildcards, patterns, the
bare `"!"`, and negated clauses. -/
def keepClause (c : HostClause) : Bool :=
  !(c.pattern.contains '*') && !(c.pattern.contains '?')
    && !(c.pattern == "!") && !c.negated

/-- The host-collection double loop of `parse_ssh_config`. -/
def collectHostnames (blocks : List SshHostBlock) : List String :=
  (blocks.map (fun b => (b.pattern.filter keepClause).map (fun c => c.pattern))).flatten

/-- Stable insertion into a list sorted by lowercased key: an element moves
past exactly the elements whose key is strictly smaller. -/
def insertByLower (s : String) : List String → List String
  | [] => [s]
  | t :: ts => if t.toLower < s.toLower then t :: insertByLower s ts else s :: t :: ts

/-- `hosts.sort_by_key(|a| a.to_lowercase())`: a stable sort by lowercased
key (modelled as stable insertion sort, observably equal to any stable sort
by that key). -/
def sortByLower : List String → List String
  | [] => []
  | s :: ss => insertByLower s (sortByLower ss)

/-- Outcome of looking at `~/.ssh/config`: absent, or present with the
`ssh2_config` parse outcome. -/
inductive SshSource where
  | absent
  | present (parsed : Except String (List SshHostBlock))

/-- `parse_ssh_config` from `loaders/ssh.rs`: `NoHomeDir` when the path
cannot be resolved, an empty list when the file is absent, `SshParse` when
the file exists but the parser fails, otherwise the filtered, sorted host
names. -/
def parse_ssh_config (home : Bool) (src : SshSource) : Except SettingsError (List String) :=
  if home then
    match src with
    | SshSource.absent => Except.ok []
    | SshSource.present (Except.error e) => Except.error (SettingsError.sshParse e)
    | SshSource.present (Except.ok blocks) =>
        Except.ok (sortByLower (collectHostnames blocks))
  else Except.error SettingsError.noHomeDir

/-! ## Settings aggregation (`settings.rs`) -/

/-- `Settings` from `settings.rs`. -/
structure Settings where
  terminal : String
  editor : String
  actions : Nodes Action
  hosts : Nodes Host

/-- `Settings::DEFAULT_TERMINAL`. -/
def Settings.DEFAULT_TERMINAL : String := "default"

/-- `Settings::DEFAULT_EDITOR`. -/
def Settings.DEFAULT_EDITOR : String := "default"

/-- `Settings::load` from `settings.rs`: load the config (defaults when
absent), load the SSH hosts, build both containers, assemble the snapshot.
The two `?` operators propagate either error unchanged. -/
def Settings.load (home : Bool) (cfgFile : ConfigFile) (sshSrc : SshSource) :
    Except SettingsError Settings :=
  match config_load home cfgFile with
  | Except.error e => Except.error e
  | Except.ok c =>
      let config := c.getD ConfigContent.defaultContent
      match parse_ssh_config home sshSrc with
      | Except.error e => Except.error e
      | Except.ok raw_hosts =>
          Except.ok
            { terminal := config.terminal.getD Settings.DEFAULT_TERMINAL,
              editor := config.editor.getD Settings.DEFAULT_EDITOR,
              actions := Nodes.from_entries (config.actions.getD []),
              hosts := Nodes.from_hostnames raw_hosts }

mutual

theorem convertEntry_eq (e : Entry) (leaves : List Action) :
    convertEntry e leaves = (specNode e leaves.length, leaves ++ entryActions e) := by
  match e with
  | Entry.action a =>
      simp [convertEntry, specNode, entryActions]
  | Entry.group name entries =>
      simp [convertEntry, specNode, entryActions,
        convertEntries_eq entries leaves]

theorem convertEntries_eq (es : List Entry) (leaves : List Action) :
    convertEntries es leaves
      = (specNodes es leaves.length, leaves ++ entriesActions es) := by
  match es with
  | [] =>
      simp [convertEntries, specNodes, entriesActions]
  | e :: rest =>
      simp [convertEntries, specNodes, entriesActions,
        convertEntry_eq e leaves,
        convertEntries_eq rest (leaves ++ entryActions e),
        List.append_assoc, Nat.add_comm]

end

theorem enumPairsFrom_append {T : Type} (k : Nat) (xs ys : List T) :
    enumPairsFrom k (xs ++ ys)
      = enumPairsFrom k xs ++ enumPairsFrom (k + xs.length) ys := by
  induction xs generalizing k with
  | nil => simp [enumPairsFrom]
  | cons x xs ih =>
      simp [enumPairsFrom, ih (k + 1), Nat.add_comm, Nat.add_assoc,
        Nat.add_left_comm]

mutual

theorem nodeLeafPairs_specNode (e : Entry) (k : Nat) :
    nodeLeafPairs (specNode e k) = enumPairsFrom k (entryActions e) := by
  match e with
  | Entry.action a =>
      simp [specNode, nodeLeafPairs, entryActions, enumPairsFrom]
  | Entry.group name entries =>
      simp [specNode, nodeLeafPairs, entryActions,
        forestLeafPairs_specNodes entries k]

theorem forestLeafPairs_specNodes (es : List Entry) (k : Nat) :
    forestLeafPairs (specNodes es k) = enumPairsFrom k (entriesActions es) := by
  match es with
  | [] =>
      simp [specNodes, forestLeafPairs, entriesActions, enumPairsFrom]
  | e :: rest =>
      simp [specNodes, forestLeafPairs, entriesActions,
        nodeLeafPairs_specNode e k,
        forestLeafPairs_specNodes rest (k + (entryActions e).length),
        enumPairsFrom_append]

end

theorem enumPairsFrom_length {T : Type} (k : Nat) (l : List T) :
    (enumPairsFrom k l).length = l.length := by
  induction l generalizing k with
  | nil => simp [enumPairsFrom]
  | cons x xs ih => simp [enumPairsFrom, ih]

theorem enumPairsFrom_map_index {T : Type} (k : Nat) (l : List T) :
    (enumPairsFrom k l).map (fun p => p.1.index) = List.range' k l.length := by
  induction l generalizing k with
  | nil => simp [enumPairsFrom]
  | cons x xs ih => simp [enumPairsFrom, List.range', ih]

theorem enumPairsFrom_mem_get {T : Type} (k : Nat) (l : List T)
    (id : NodeId) (v : T) (h : (id, v) ∈ enumPairsFrom k l) :
    k ≤ id.index ∧ l.get? (id.index - k) = some v := by
  induction l generalizing k with
  | nil => simp [enumPairsFrom] at h
  | cons x xs ih =>
      simp only [enumPairsFrom, List.mem_cons] at h
      cases h with
      | inl h =>
          cases h
          simp
      | inr h =>
          have := ih (k + 1) h
          refine ⟨by omega, ?_⟩
          have hk : id.index - k = (id.index - (k + 1)) + 1 := by omega
          rw [hk]
          simpa using this.2

/-- The `enumerate` loop of `from_hostnames`, characterized. -/
theorem hostLoop_eq (hs : List String) (i : Nat) (leaves : List Host) :
    hostLoop hs i leaves
      = ((enumPairsFrom i (hs.map Host.mk)).map (fun p => Node.leaf p.1 p.2),
         leaves ++ hs.map Host.mk) := by
  induction hs generalizing i leaves with
  | nil => simp [hostLoop, enumPairsFrom]
  | cons h rest ih =>
      simp [hostLoop, enumPairsFrom, ih (i + 1) (leaves ++ [Host.mk h])]

theorem from_entries_tree (entries : List Entry) :
    (Nodes.from_entries entries).tree = specNodes entries 0 := by
  simp [Nodes.from_entries, convertEntries_eq]

theorem from_entries_leaves (entries : List Entry) :
    (Nodes.from_entries entries).leaves = entriesActions entries := by
  simp [Nodes.from_entries, convertEntries_eq]

theorem from_hostnames_tree (hs : List String) :
    (Nodes.from_hostnames hs).tree
      = (enumPairsFrom 0 (hs.map Host.mk)).map (fun p => Node.leaf p.1 p.2) := by
  simp [Nodes.from_hostnames, hostLoop_eq]

theorem from_hostnames_leaves (hs : List String) :
    (Nodes.from_hostnames hs).leaves = hs.map Host.mk := by
  simp [Nodes.from_hostnames, hostLoop_eq]

theorem forestLeafPairs_from_entries (entries : List Entry) :
    forestLeafPairs (Nodes.from_entries entries).tree
      = enumPairsFrom 0 (Nodes.from_entries entries).leaves := by
  rw [from_entries_tree, from_entries_leaves, forestLeafPairs_specNodes]

theorem forestLeafPairs_map_leaf {T : Type} (ps : List (NodeId × T)) :
    forestLeafPairs (ps.map (fun p => Node.leaf p.1 p.2)) = ps := by
  induction ps with
  | nil => simp [forestLeafPairs]
  | cons p rest ih => simp [forestLeafPairs, nodeLeafPairs, ih]

theorem forestLeafPairs_from_hostnames (hs : List String) :
    forestLeafPairs (Nodes.from_hostnames hs).tree
      = enumPairsFrom 0 (Nodes.from_hostnames hs).leaves := by
  rw [from_hostnames_tree, from_hostnames_leaves, forestLeafPairs_map_leaf]

theorem leafFlatInvariant_of_enum {T : Type} (ns : Nodes T)
    (h : forestLeafPairs ns.tree = enumPairsFrom 0 ns.leaves) :
    leafFlatInvariant ns := by
  refine ⟨?_, ?_, ?_⟩
  · intro id v hm
    rw [Nodes.nodes, h] at hm
    have := enumPairsFrom_mem_get 0 ns.leaves id v hm
    simpa [Nodes.get] using this.2
  · rw [Nodes.nodes, h, enumPairsFrom_map_index, Nodes.len,
      List.range_eq_range']
  · rw [Nodes.nodes, h, enumPairsFrom_length, Nodes.len]

theorem iter_eq_enumPairsFrom {T : Type} (ns : Nodes T) :
    ns.iter = enumPairsFrom 0 ns.leaves := by
  rw [Nodes.iter, List.enum]
  generalize ns.leaves = l
  suffices h : ∀ (k : Nat),
      (l.enumFrom k).map (fun p => (NodeId.mk p.1, p.2)) = enumPairsFrom k l by
    exact h 0
  induction l with
  | nil => intro k; simp [enumPairsFrom]
  | cons x xs ih => intro k; simp [List.enumFrom, enumPairsFrom, ih (k + 1)]

/-- C1: every `Nodes<T>` built by `from_entries` or `from_hostnames` satisfies
the tree/flat invariant: each tree `Leaf{id, value}` has `flat[id.index()] ==
value` (via `get`), the leaf ids of the depth-first traversal of `nodes()`
enumerate `[0, len)` exactly once each (a bijection between tree leaves and
flat slots), and `len()` equals the number of leaves reachable from
`nodes()`, regardless of interleaved empty or non-empty groups. -/
theorem from_entries_from_hostnames_leafFlatInvariant :
    (∀ entries : List Entry, leafFlatInvariant (Nodes.from_entries entries))
    ∧ (∀ hs : List String, leafFlatInvariant (Nodes.from_hostnames hs)) :=
  ⟨fun entries => leafFlatInvariant_of_enum _ (forestLeafPairs_from_entries entries),
   fun hs => leafFlatInvariant_of_enum _ (forestLeafPairs_from_hostnames hs)⟩

/-- C1 witness: the invariant evaluated on a concrete mixed tree (an action,
an empty group, a group with one action). -/
theorem from_entries_from_hostnames_leafFlatInvariant_witness :
    (Nodes.from_entries
        [Entry.action ⟨"Deploy", "deploy.sh"⟩, Entry.group "Empty" [],
         Entry.group "Prod" [Entry.action ⟨"S1", "ssh s1"⟩]]).get ⟨1⟩
      = some ⟨"S1", "ssh s1"⟩
    ∧ (Nodes.from_hostnames ["a", "b"]).get ⟨0⟩ = some ⟨"a"⟩ := by
  have h := from_entries_from_hostnames_leafFlatInvariant
  refine ⟨(h.1 _).1 ⟨1⟩ _ ?_, (h.2 ["a", "b"]).1 ⟨0⟩ _ ?_⟩
  · show _ ∈ forestLeafPairs _
    decide
  · show _ ∈ forestLeafPairs _
    decide

/-- C2: `from_entries` is exactly the spec-side single pre-order traversal —
the output tree is the input tree with each action replaced by a `Leaf`
carrying the next sequential id (0, 1, 2, … per leaf, groups preserved with
their names and order, empty groups included), and the flat table is the
pre-order action list; `from_hostnames` makes every input element a top-level
`Leaf` whose id is its position, with no `Group` nodes. -/
theorem from_entries_refines_spec :
    (∀ entries : List Entry,
       Nodes.from_entries entries
         = Nodes.mk (specNodes entries 0) (entriesActions entries))
    ∧ (∀ hs : List String,
       Nodes.from_hostnames hs
         = Nodes.mk
             ((enumPairsFrom 0 (hs.map Host.mk)).map (fun p => Node.leaf p.1 p.2))
             (hs.map Host.mk)) := by
  constructor
  · intro entries
    have ht := from_entries_tree entries
    have hl := from_entries_leaves entries
    cases hns : Nodes.from_entries entries
    rw [hns] at ht hl
    simp only at ht hl
    rw [ht, hl]
  · intro hs
    have ht := from_hostnames_tree hs
    have hl := from_hostnames_leaves hs
    cases hns : Nodes.from_hostnames hs
    rw [hns] at ht hl
    simp only at ht hl
    rw [ht, hl]

/-- C3: for every `Nodes<T>` and every `NodeId`, `get` returns `some` of the
stored flat value when the index is in `[0, len)` and `none` when it is out of
range (it is a total function, so it never panics), and `get` agrees with
every `(id, value)` pair produced by `iter` on the same instance. -/
theorem get_total_and_iter_consistent :
    ∀ (T : Type) (ns : Nodes T) (id : NodeId),
      (∀ h : id.index < ns.len, ns.get id = some (ns.leaves.get ⟨id.index, h⟩))
      ∧ (ns.len ≤ id.index → ns.get id = none)
      ∧ (∀ p ∈ ns.iter, ns.get p.1 = some p.2) := by
  intro T ns id
  refine ⟨?_, ?_, ?_⟩
  · intro h
    simp [Nodes.get, List.get?_eq_get h]
  · intro h
    simp only [Nodes.get]
    exact List.get?_eq_none.mpr h
  · intro p hp
    rw [iter_eq_enumPairsFrom] at hp
    have := enumPairsFrom_mem_get 0 ns.leaves p.1 p.2 hp
    simpa [Nodes.get] using this.2

/-- C3 witness: `get` on a concrete container, in range and out of range, and
agreement with a concrete `iter` pair. -/
theorem get_total_and_iter_consistent_witness :
    (Nodes.from_hostnames ["a", "b"]).get ⟨1⟩ = some ⟨"b"⟩
    ∧ (Nodes.from_hostnames ["a", "b"]).get ⟨2⟩ = none := by
  have h1 := get_total_and_iter_consistent Host (Nodes.from_hostnames ["a", "b"]) ⟨1⟩
  have h2 := get_total_and_iter_consistent Host (Nodes.from_hostnames ["a", "b"]) ⟨2⟩
  exact ⟨h1.2.2 (⟨1⟩, ⟨"b"⟩) (by decide), h2.2.1 (by decide)⟩

theorem fromJsonAction_toJsonAction (a : Action) :
    fromJsonAction (toJsonAction a) = some a := by
  simp [toJsonAction, fromJsonAction, getStrField, List.filter]

theorem fromJsonAction_single_arr (name : String) (l : List Json) :
    fromJsonAction (Json.obj [(name, Json.arr l)]) = none := by
  simp only [fromJsonAction, getStrField, List.filter]
  by_cases h : name = "name"
  · subst h
    simp
  · have hb : (name == "name") = false := by simpa using h
    simp [hb]

mutual

theorem fromJson_toJson_entry (e : Entry) :
    fromJsonEntry (toJsonEntry e) = some e := by
  match e with
  | Entry.action a =>
      simp [toJsonEntry, fromJsonEntry, fromJsonAction_toJsonAction]
  | Entry.group name entries =>
      rw [toJsonEntry, fromJsonEntry, fromJsonAction_single_arr]
      simp [fromJsonGroup, fromJsonEntrySeq, fromJson_toJson_entries entries]

theorem fromJson_toJson_entries (es : List Entry) :
    fromJsonEntryList (toJsonEntries es) = some es := by
  match es with
  | [] => simp [toJsonEntries, fromJsonEntryList]
  | e :: rest =>
      simp [toJsonEntries, fromJsonEntryList, fromJson_toJson_entry e,
        fromJson_toJson_entries rest]

end

theorem fromJson_toJson_group (g : Group) :
    fromJsonGroup (toJsonGroup g) = some g := by
  simp [toJsonGroup, fromJsonGroup, fromJsonEntrySeq,
    fromJson_toJson_entries g.entries]

/-- C6: serializing a parsed config tree and re-parsing it yields a
structurally equal tree: every `Entry` (action or group, recursively)
re-parses to itself, every standalone `Group` serialized as the single-key
map from its name to its serialized entries re-parses to itself, and every
`Action` re-parses to the same name and cmd. -/
theorem serialize_roundtrip :
    (∀ e : Entry, fromJsonEntry (toJsonEntry e) = some e)
    ∧ (∀ g : Group, fromJsonGroup (toJsonGroup g) = some g)
    ∧ (∀ a : Action, fromJsonAction (toJsonAction a) = some a)
    ∧ (∀ es : List Entry, fromJsonEntryList (toJsonEntries es) = some es) :=
  ⟨fromJson_toJson_entry, fromJson_toJson_group, fromJsonAction_toJsonAction,
   fromJson_toJson_entries⟩

/-- C7: deserializing a `Group` from a JSON map succeeds, producing
`Group{name, entries}`, exactly when the map has a single key whose value is
a valid entry sequence; a map with zero keys or more than one key always
fails. -/
theorem group_from_map_single_key :
    ∀ kvs : List (String × Json),
      fromJsonGroup (Json.obj kvs)
        = match kvs with
          | [(k, v)] => (fromJsonEntrySeq v).map (fun es => Group.mk k es)
          | _ => none := by
  intro kvs
  match kvs with
  | [] => simp [fromJsonGroup]
  | [(k, v)] =>
      rw [fromJsonGroup]
      cases h : fromJsonEntrySeq v <;> simp [h]
  | (k, v) :: p :: rest =>
      rw [fromJsonGroup]
      cases h : fromJsonEntrySeq v <;> simp [h]

theorem isActionShape_parses (v : Json) (h : isActionShape v = true) :
    (fromJsonAction v).isSome = true := by
  cases v with
  | obj kvs =>
      simp only [isActionShape, Bool.and_eq_true] at h
      obtain ⟨n, hgn⟩ := Option.isSome_iff_exists.mp h.1.1
      obtain ⟨c, hgc⟩ := Option.isSome_iff_exists.mp h.1.2
      simp [fromJsonAction, hgn, hgc]
  | null => simp [isActionShape] at h
  | bool b => simp [isActionShape] at h
  | num n => simp [isActionShape] at h
  | str s => simp [isActionShape] at h
  | arr xs => simp [isActionShape] at h

mutual

theorem validEntry_parses (path : String) (x : Json)
    (h : validateEntry path x = []) : (fromJsonEntry x).isSome = true := by
  rw [validateEntry.eq_def] at h
  by_cases hshape : isActionShape x = true
  · have ha := isActionShape_parses x hshape
    obtain ⟨a, hae⟩ := Option.isSome_iff_exists.mp ha
    simp [fromJsonEntry, hae]
  · rw [if_neg hshape] at h
    split at h
    · next k xs =>
        have hl := validEntryList_parses (path ++ "/" ++ k) 0 xs h
        obtain ⟨es, hes⟩ := Option.isSome_iff_exists.mp hl
        rw [fromJsonEntry, fromJsonAction_single_arr]
        simp [fromJsonGroup, fromJsonEntrySeq, hes]
    · next => simp at h
termination_by (sizeOf x, 1)

theorem validEntryList_parses (path : String) (i : Nat) (xs : List Json)
    (h : validateEntryList path i xs = []) :
    (fromJsonEntryList xs).isSome = true := by
  match xs with
  | [] => simp [fromJsonEntryList]
  | x :: rest =>
      rw [validateEntryList, List.append_eq_nil] at h
      have he := validEntry_parses (path ++ "/" ++ toString i) x h.1
      have hr := validEntryList_parses path (i + 1) rest h.2
      obtain ⟨e, hee⟩ := Option.isSome_iff_exists.mp he
      obtain ⟨es, hese⟩ := Option.isSome_iff_exists.mp hr
      simp [fromJsonEntryList, hee, hese]
termination_by (sizeOf xs, 0)

end

theorem distinct_lookup (kvs : List (String × Json)) (k : String)
    (hd : distinctKeys (kvs.map Prod.fst) = true) :
    lookupField kvs k = FieldLookup.absent
    ∨ ∃ v, lookupField kvs k = FieldLookup.present v ∧ (k, v) ∈ kvs := by
  induction kvs with
  | nil => left; rfl
  | cons p rest ih =>
      obtain ⟨k', v'⟩ := p
      simp only [List.map, distinctKeys, Bool.and_eq_true] at hd
      obtain ⟨hnc, hdr⟩ := hd
      have hknotin : k' ∉ rest.map Prod.fst := by
        simpa using hnc
      by_cases hk : k' = k
      · subst hk
        right
        refine ⟨v', ?_, List.mem_cons_self _ _⟩
        have hfr : rest.filter (fun p => p.1 == k') = [] := by
          rw [List.filter_eq_nil_iff]
          intro p hp hbeq
          exact hknotin (by
            have : p.1 = k' := by simpa using hbeq
            exact this ▸ List.mem_map_of_mem Prod.fst hp)
        simp [lookupField, List.filter, hfr]
      · have hstep : lookupField ((k', v') :: rest) k = lookupField rest k := by
          simp [lookupField, List.filter, show (k' == k) = false from by simpa using hk]
        rw [hstep]
        rcases ih hdr with hab | ⟨v, hv, hm⟩
        · left; exact hab
        · right; exact ⟨v, hv, List.mem_cons_of_mem _ hm⟩

theorem validateFields_mem_nil (kvs : List (String × Json))
    (h : validateFields kvs = []) : ∀ p ∈ kvs, validateField p = [] := by
  intro p hp
  rw [validateFields, List.flatten_eq_nil_iff] at h
  exact h _ (List.mem_map_of_mem validateField hp)

theorem valid_deserializes (v : Json) (hd : topKeysDistinct v = true)
    (h : validate v = ValidationResult.valid) :
    (deserializeConfig v).isSome = true := by
  have htop : validateTop v = [] := by
    rw [validate] at h
    by_cases he : (validateTop v).isEmpty
    · exact List.isEmpty_iff.mp he
    · simp only [he] at h
      cases h
  cases v with
  | obj kvs =>
      have hf : validateFields kvs = [] := by simpa [validateTop] using htop
      have hmem := validateFields_mem_nil kvs hf
      have hdk : distinctKeys (kvs.map Prod.fst) = true := by
        simpa [topKeysDistinct] using hd
      have hterm : (parseOptStr (lookupField kvs "terminal")).isSome = true := by
        rcases distinct_lookup kvs "terminal" hdk with hl | ⟨w, hl, hm⟩
        · simp [hl, parseOptStr]
        · have hw := hmem _ hm
          cases w with
          | str s => simp [hl, parseOptStr]
          | null => simp [validateField] at hw
          | bool b => simp [validateField] at hw
          | num n => simp [validateField] at hw
          | arr xs => simp [validateField] at hw
          | obj o => simp [validateField] at hw
      have hed : (parseOptStr (lookupField kvs "editor")).isSome = true := by
        rcases distinct_lookup kvs "editor" hdk with hl | ⟨w, hl, hm⟩
        · simp [hl, parseOptStr]
        · have hw := hmem _ hm
          cases w with
          | str s => simp [hl, parseOptStr]
          | null => simp [validateField] at hw
          | bool b => simp [validateField] at hw
          | num n => simp [validateField] at hw
          | arr xs => simp [validateField] at hw
          | obj o => simp [validateField] at hw
      have hac : (parseOptEntries (lookupField kvs "actions")).isSome = true := by
        rcases distinct_lookup kvs "actions" hdk with hl | ⟨w, hl, hm⟩
        · simp [hl, parseOptEntries]
        · have hw := hmem _ hm
          cases w with
          | arr xs =>
              simp only [validateField] at hw
              simp only [reduceIte] at hw
              have := validEntryList_parses "/actions" 0 xs hw
              obtain ⟨es, hes⟩ := Option.isSome_iff_exists.mp this
              simp [hl, parseOptEntries, fromJsonEntrySeq, hes]
          | null => simp [validateField] at hw
          | bool b => simp [validateField] at hw
          | num n => simp [validateField] at hw
          | str s => simp [validateField] at hw
          | obj kvs2 => simp [validateField] at hw
      obtain ⟨t, ht⟩ := Option.isSome_iff_exists.mp hterm
      obtain ⟨e, hee⟩ := Option.isSome_iff_exists.mp hed
      obtain ⟨a, ha⟩ := Option.isSome_iff_exists.mp hac
      simp [deserializeConfig, ht, hee, ha]
  | null => simp [validateTop] at htop
  | bool b => simp [validateTop] at htop
  | num n => simp [validateTop] at htop
  | str s => simp [validateTop] at htop
  | arr xs => simp [validateTop] at htop

/-- C4: `load_from_str` fails with the `ConfigParse` (syntax) kind exactly
when the input is not valid JSON; on valid JSON that fails schema validation
it fails with `ConfigValidation` carrying the full collection of violations
(the two-violation document below yields both errors, not only the first);
and once validation succeeds, typed deserialization is what produces the
result — and it always succeeds on a validated document. -/
theorem load_from_str_error_classes :
    load_from_str none = Except.error SettingsError.configParse
    ∧ (∀ v : Json, topKeysDistinct v = true →
        match validate v with
        | ValidationResult.invalid errs =>
            load_from_str (some v)
              = Except.error (SettingsError.configValidation errs)
        | ValidationResult.valid =>
            ∃ c, deserializeConfig v = some c
              ∧ load_from_str (some v) = Except.ok c)
    ∧ validate (Json.obj [("terminal", Json.num 1), ("editor", Json.num 2)])
        = ValidationResult.invalid
            [⟨"/terminal", "expected a string"⟩, ⟨"/editor", "expected a string"⟩] := by
  refine ⟨rfl, ?_, rfl⟩
  intro v hd
  cases hv : validate v with
  | invalid errs => simp [load_from_str, hv]
  | valid =>
      obtain ⟨c, hc⟩ := Option.isSome_iff_exists.mp (valid_deserializes v hd hv)
      exact ⟨c, hc, by simp [load_from_str, hv, hc]⟩

/-- C4 witness: a well-formed valid document loads, an invalid-JSON outcome
is a `ConfigParse` error, and a schema-invalid document carries its
validation errors. -/
theorem load_from_str_error_classes_witness :
    load_from_str (some (Json.obj [("terminal", Json.str "kitty")]))
      = Except.ok ⟨some "kitty", none, none⟩
    ∧ load_from_str (some (Json.obj [("junk", Json.null)]))
      = Except.error (SettingsError.configValidation [⟨"/junk", "unknown field junk"⟩]) := by
  have h := load_from_str_error_classes
  have h1 := h.2.1 (Json.obj [("terminal", Json.str "kitty")]) rfl
  have h2 := h.2.1 (Json.obj [("junk", Json.null)]) rfl
  rw [show validate (Json.obj [("terminal", Json.str "kitty")])
        = ValidationResult.valid from rfl] at h1
  rw [show validate (Json.obj [("junk", Json.null)])
        = ValidationResult.invalid [⟨"/junk", "unknown field junk"⟩] from rfl] at h2
  obtain ⟨c, hc1, hc2⟩ := h1
  have hcv : c = ⟨some "kitty", none, none⟩ := by
    rw [show deserializeConfig (Json.obj [("terminal", Json.str "kitty")])
          = some ⟨some "kitty", none, none⟩ from rfl] at hc1
    exact (Option.some.inj hc1).symm
  exact ⟨hcv ▸ hc2, h2⟩

/-- C9: for every JSON object with a top-level key other than `terminal`,
`editor` and `actions`, validation returns `Invalid` with at least one error
whose path references the unknown key. -/
theorem unknown_top_level_key_rejected :
    ∀ (kvs : List (String × Json)) (k : String) (v : Json),
      (k, v) ∈ kvs → k ≠ "terminal" → k ≠ "editor" → k ≠ "actions" →
      ∃ errs, validate (Json.obj kvs) = ValidationResult.invalid errs
        ∧ ∃ e ∈ errs, e.path = "/" ++ k := by
  intro kvs k v hm h1 h2 h3
  have hfield : validateField (k, v) = [⟨"/" ++ k, "unknown field " ++ k⟩] := by
    simp [validateField, h1, h2, h3]
  have hmem : (⟨"/" ++ k, "unknown field " ++ k⟩ : ValidationError)
      ∈ validateFields kvs := by
    rw [validateFields, List.mem_flatten]
    exact ⟨validateField (k, v), List.mem_map_of_mem validateField hm,
      by rw [hfield]; exact List.mem_singleton_self _⟩
  refine ⟨validateFields kvs, ?_, ⟨_, hmem, rfl⟩⟩
  have hne : validateFields kvs ≠ [] := List.ne_nil_of_mem hmem
  simp [validate, validateTop, List.isEmpty_iff, hne]

/-- C9 witness: Scenario D — the document with only the key `unknown_field`
fails validation with an error whose path references that key. -/
theorem unknown_top_level_key_rejected_witness :
    ∃ errs, validate (Json.obj [("unknown_field", Json.str "x")])
        = ValidationResult.invalid errs
      ∧ ∃ e ∈ errs, e.path = "/unknown_field" := by
  have h := unknown_top_level_key_rejected [("unknown_field", Json.str "x")]
    "unknown_field" (Json.str "x") (List.mem_singleton_self _)
    (by decide) (by decide) (by decide)
  simpa using h

/-- C5: `parse_ssh_config` returns an empty host list (not an error) when the
SSH config file is absent and the `SshParse` error kind when the file exists
but cannot be parsed; consequently `Settings::load` fails with `SshParse`
for a malformed existing SSH config whenever the config-file side succeeds,
never silently substituting an empty host list. -/
theorem ssh_absent_empty_malformed_fatal :
    parse_ssh_config true SshSource.absent = Except.ok []
    ∧ (∀ e : String,
        parse_ssh_config true (SshSource.present (Except.error e))
          = Except.error (SettingsError.sshParse e))
    ∧ (∀ (cfgFile : ConfigFile) (e : String) (c : Option ConfigContent),
        config_load true cfgFile = Except.ok c →
        Settings.load true cfgFile (SshSource.present (Except.error e))
          = Except.error (SettingsError.sshParse e)) := by
  refine ⟨rfl, fun e => rfl, ?_⟩
  intro cfgFile e c h
  simp [Settings.load, h, parse_ssh_config]

/-- C5 witness: with an absent config file (which loads successfully) and a
malformed existing SSH config, `Settings::load` fails with `SshParse`. -/
theorem ssh_absent_empty_malformed_fatal_witness :
    Settings.load true ConfigFile.absent (SshSource.present (Except.error "bad"))
      = Except.error (SettingsError.sshParse "bad") :=
  ssh_absent_empty_malformed_fatal.2.2 ConfigFile.absent "bad" none rfl

/-- C8: with the config file absent (and the host source empty because the
SSH config is absent), `Settings::load` succeeds with terminal `"default"`,
editor `"default"`, an empty actions container and an empty hosts
container. -/
theorem settings_load_config_absent_defaults :
    Settings.load true ConfigFile.absent SshSource.absent
      = Except.ok ⟨"default", "default", Nodes.from_entries [], Nodes.from_hostnames []⟩
    ∧ (Nodes.from_entries []).is_empty = true
    ∧ (Nodes.from_hostnames []).is_empty = true :=
  ⟨rfl, rfl, rfl⟩

/-- C10: for every `Host`, `command()` is the string `"ssh "` concatenated
with the hostname. -/
theorem host_command_ssh_concat :
    ∀ h : Host, h.command = "ssh " ++ h.hostname :=
  fun _ => rfl

end XShuttle
